import Mathlib

/-!
Verification of the precedence-resolution engine of `gnome_shortcuts.go`
(the shortcut-conflict reporter).  The Go source is shallowly embedded:
pure string helpers become Lean functions on `List Char` / `String`,
the Go maps `chosen` and `customMap` become association lists (insertion
ordered; Go map iteration order is unspecified, so theorems proved here
are stated order-insensitively), and the two external inputs — the
`gsettings list-recursively` dump and the gschema-file key-order index —
become parameters of `collect` (the dump as its list of text lines, the
order index `ord` standing for `orderIdx`, i.e. the memoised
`loadKeyOrder` lookup with its `1 <<< 20` "last" default already folded
in; the memoisation cache is semantically the function itself).
Machine integers stay well inside 64 bits here, so ranks are `Int`
(the static rank is `-1`) and orders are `Nat` exactly as the program
only ever produces non-negative order values.
-/

namespace GnomeShortcuts

/-! ### Keyboard layout (`kb`, `layout`) -/

/-- The three keyboard layouts (`kbApple`, `kbPC`, `kbChrome`). -/
inductive kb where
  | kbApple
  | kbPC
  | kbChrome
deriving DecidableEq, Repr

/-- Lower-casing of a string, one character at a time
(embeds `strings.ToLower`; inputs are ASCII). -/
def lowerStr (s : String) : String := ⟨s.data.map Char.toLower⟩

/-- The environment-variable part of `layout()`: which layout a
`KEY_LAYOUT` value selects, `none` meaning "fall through to the
interactive prompt". -/
def layoutFromEnv (s : String) : Option kb :=
  let l := lowerStr s
  if l = "apple" ∨ l = "mac" then some kb.kbApple
  else if l = "pc" ∨ l = "windows" then some kb.kbPC
  else if l = "chrome" ∨ l = "chromebook" then some kb.kbChrome
  else none

/-- `layout()` as a function of the environment value and of the result
the interactive prompt would return (the prompt itself is external
I/O, out of scope; its abort path exits the process). -/
def layout (env : String) (promptChoice : kb) : kb :=
  (layoutFromEnv env).getD promptChoice

/-! ### Modifier labels (`modLabels`) -/

/-- `modLabels`: the modifier → printable-label table of the selected
layout, as a function returning `""` for absent keys exactly like a Go
map lookup. -/
def modLabels (k : kb) (t : String) : String :=
  if t = "<Primary>" ∨ t = "<Control>" ∨ t = "<Ctrl>" then "Ctrl"
  else if t = "<Shift>" then "Shift"
  else if t = "<Alt>" then (match k with
    | kb.kbApple => "Option"
    | _ => "Alt")
  else if t = "<Super>" then (match k with
    | kb.kbApple => "Command"
    | kb.kbChrome => "Search"
    | kb.kbPC => "Win")
  else ""

/-! ### String helpers (`titleCase`, `humanise`, `strings` package ops) -/

/-- Embeds `titleCase`: lower-case the whole string, then upper-case
the first character; the empty string is returned unchanged. -/
def titleCase (s : String) : String :=
  match s.data.map Char.toLower with
  | [] => s
  | c :: cs => ⟨c.toUpper :: cs⟩

/-- Substring test on character lists (embeds `strings.Contains`). -/
def containsSub (hay : List Char) (pat : List Char) : Bool :=
  match hay with
  | [] => decide (pat = [])
  | _ :: t => pat.isPrefixOf hay || containsSub t pat

/-- `strings.Contains` on strings. -/
def containsS (s : String) (pat : String) : Bool := containsSub s.data pat.data

/-- `strings.Fields`: whitespace-separated fields, no empty fields.
`acc` accumulates the current field in reverse. -/
def fieldsAux : List Char → List Char → List String
  | [], acc => if acc = [] then [] else [⟨acc.reverse⟩]
  | c :: rest, acc =>
    if c.isWhitespace then
      if acc = [] then fieldsAux rest []
      else (⟨acc.reverse⟩ : String) :: fieldsAux rest []
    else fieldsAux rest (c :: acc)

/-- `strings.Fields` on a string. -/
def fields (s : String) : List String := fieldsAux s.data []

/-- `strings.Join` with a separator. -/
def joinSep (sep : String) : List String → String
  | [] => ""
  | [x] => x
  | x :: y :: xs => x ++ sep ++ joinSep sep (y :: xs)

/-- Embeds `humanise`: replace `_` and `-` by spaces, split into
fields, title-case each, join with single spaces. -/
def humanise (s : String) : String :=
  let s1 : String := ⟨s.data.map (fun c => if c = '_' ∨ c = '-' then ' ' else c)⟩
  joinSep " " ((fields s1).map titleCase)

/-- `strings.Trim`: drop characters of the cut set from both ends. -/
def trimCut (s : String) (cut : List Char) : String :=
  ⟨((s.data.dropWhile (fun c => cut.contains c)).reverse.dropWhile
      (fun c => cut.contains c)).reverse⟩

/-- `strings.TrimPrefix`. -/
def trimPrefixStr (s pre : String) : String :=
  if pre.data.isPrefixOf s.data then ⟨s.data.drop pre.data.length⟩ else s

/-- `strings.TrimSuffix`. -/
def trimSuffixStr (s suf : String) : String :=
  if suf.data.isSuffixOf s.data then ⟨s.data.take (s.data.length - suf.data.length)⟩ else s

/-- `trim = trim[idx+1:]` for the first `.` when one exists
(`strings.IndexByte` guarded by `idx >= 0` in `classify`). -/
def dropThroughFirstDot (s : String) : String :=
  if s.data.contains '.' then ⟨(s.data.dropWhile (fun c => c ≠ '.')).drop 1⟩ else s

/-- The segment after the last `.` (`trim[strings.LastIndexByte(trim, '.')+1:]`;
the whole string when there is no dot). -/
def afterLastDot (s : String) : String :=
  ⟨(s.data.reverse.takeWhile (fun c => c ≠ '.')).reverse⟩

/-- `schema[strings.Index(schema, ":")+1:]` — everything after the first
colon, or the whole string when there is none (`Index` returns `-1`). -/
def afterColon (s : String) : String :=
  if s.data.contains ':' then ⟨(s.data.dropWhile (fun c => c ≠ ':')).drop 1⟩ else s

/-- `filepath.Base` (Unix rules, empty volume name). -/
def baseName (p : String) : String :=
  if p = "" then "."
  else
    let l := (p.data.reverse.dropWhile (fun c => c = '/')).reverse
    if l = [] then "/"
    else ⟨(l.reverse.takeWhile (fun c => c ≠ '/')).reverse⟩

/-! ### Accelerator tokenisation and formatting (`tokenRE`, `fmtAccel`) -/

/-- The character class `[A-Za-z0-9_]` of `tokenRE`. -/
def isWordChar (c : Char) : Bool := c.isAlphanum || c = '_'

/-- `tokenRE.FindAllString` for `(<[^>]+>|[A-Za-z0-9_]+)`: scan left to
right; at `<`, a bracket token extends to the first following `>`
provided at least one character lies between (otherwise the position
fails and the scan advances); otherwise a maximal word-character run is
a token; all other characters separate tokens.  Fuel-driven so the
recursion is structural; the fuel equals the input length, enough since
every step consumes at least one character. -/
def tokenizeAux : Nat → List Char → List String
  | 0, _ => []
  | _ + 1, [] => []
  | fuel + 1, c :: rest =>
    if c = '<' then
      match rest.findIdx? (fun d => d = '>') with
      | some 0 => tokenizeAux fuel rest
      | some (k + 1) =>
        (⟨'<' :: (rest.take (k + 1) ++ ['>'])⟩ : String) ::
          tokenizeAux fuel (rest.drop (k + 2))
      | none => tokenizeAux fuel rest
    else if isWordChar c then
      (⟨c :: rest.takeWhile isWordChar⟩ : String) ::
        tokenizeAux fuel (rest.dropWhile isWordChar)
    else tokenizeAux fuel rest

/-- All accelerator tokens of a raw spec. -/
def tokenize (cs : List Char) : List String := tokenizeAux cs.length cs

/-- Does a string start with the given character? (`strings.HasPrefix`
against a one-character pattern.) -/
def strHasPre (s : String) (c : Char) : Bool :=
  match s.data with
  | [] => false
  | d :: _ => d == c

/-- Does a string end with the given character? -/
def strHasSuf (s : String) (c : Char) : Bool :=
  match s.data.getLast? with
  | some d => d == c
  | none => false

/-- The per-token branch of `fmtAccel`: layout label if the token is a
recognised modifier, else humanised bracket contents for an
unrecognised `<...>` token, else the humanised plain token. -/
def tokenLabel (lbl : String → String) (t : String) : String :=
  if lbl t ≠ "" then lbl t
  else if strHasPre t '<' && strHasSuf t '>' then humanise (trimCut t ['<', '>'])
  else humanise t

/-- Embeds `fmtAccel`: reject any spec mentioning an `XF86` multimedia
key, tokenise, render each token, reject if no token survives,
otherwise join with `" + "`.  `none` is the Go `("", false)`. -/
def fmtAccel (spec : String) (lbl : String → String) : Option String :=
  if containsS spec "XF86" then none
  else
    let out := (tokenize spec.data).map (tokenLabel lbl)
    if out = [] then none
    else some (joinSep " + " out)

/-! ### Schema classification (`classify`) -/

/-- The window-manager family rank. -/
def wmRank : Int := 0

/-- The shell / media-keys family rank. -/
def shellRank : Int := 1

/-- The default application-specific rank. -/
def appRank : Int := 2

/-- The custom-keybinding rank. -/
def customRank : Int := 3

/-- Embeds `classify(schema, key)`: ordered substring rules, first
match wins, else strip the `.keybindings` suffix and the `org.` vendor
prefix, drop through the first dot, humanise the final dot segment.
The `key` argument is unused by the source as well. -/
def classify (schema : String) (key : String) : String × Int :=
  if containsS schema ".desktop.wm.keybindings"
      || containsS schema ".mutter.wayland.keybindings"
      || containsS schema ".mutter.keybindings" then ("Window Manager", wmRank)
  else if containsS schema ".shell.keybindings" then ("GNOME Shell", shellRank)
  else if containsS schema ".settings-daemon.plugins.media-keys" then ("Media Keys", shellRank)
  else if containsS schema ".custom-keybinding" then ("Custom", customRank)
  else
    let t1 := trimSuffixStr schema ".keybindings"
    let t2 := trimPrefixStr t1 "org."
    let t3 := dropThroughFirstDot t2
    (humanise (afterLastDot t3), appRank)

/-! ### Data model of the resolver -/

/-- The `row` struct: a resolved binding record.  `rank` is `Int`
because the static overrides use rank `-1`; every order value the
program produces is non-negative, hence `order : Nat`. -/
structure Row where
  accel : String
  app : String
  action : String
  rank : Int
  order : Nat
deriving DecidableEq, Repr

/-- The `custom` struct: the three independently observed fields of a
custom-keybinding group (absent fields are the empty string, the Go
zero value). -/
structure Custom where
  bind : String
  name : String
  cmd : String
deriving DecidableEq, Repr

/-- The Go zero value `&custom{}`. -/
def emptyCustom : Custom := ⟨"", "", ""⟩

/-- The `staticBind` struct of the static-override table. -/
structure StaticBind where
  spec : String
  action : String
deriving DecidableEq, Repr

/-- The static-override table `coreShortcuts`. -/
def coreShortcuts : List StaticBind :=
  [⟨"<Super>", "Show Activities / Search"⟩,
   ⟨"<Super>+Left", "Tile Window Left"⟩,
   ⟨"<Super>+Right", "Tile Window Right"⟩,
   ⟨"<Super>+Up", "Maximise Window"⟩,
   ⟨"<Super>+Down", "Restore / Minimise Window"⟩]

/-! ### The `chosen` map and the `customMap` as association lists -/

/-- Lookup in the `chosen` association list (a Go map access). -/
def lookupRow : List (String × Row) → String → Option Row
  | [], _ => none
  | (k, r) :: t, a => if k = a then some r else lookupRow t a

/-- The replacement test of the resolver:
`rank < rOld.rank || (rank == rOld.rank && ord < rOld.order)`. -/
abbrev better (rNew rOld : Row) : Prop :=
  rNew.rank < rOld.rank ∨ (rNew.rank = rOld.rank ∧ rNew.order < rOld.order)

/-- The conditional store `chosen[acc] = row` guarded by the `better`
test (insert when the accelerator is new, replace only when strictly
better, keep the first-seen record on ties). -/
def updateChosen (ch : List (String × Row)) (acc : String) (r : Row) : List (String × Row) :=
  match ch with
  | [] => [(acc, r)]
  | (k, old) :: t =>
    if k = acc then
      if better r old then (acc, r) :: t else (k, old) :: t
    else (k, old) :: updateChosen t acc r

/-- Unconditional store `chosen[acc] = row` (a plain Go map assignment,
used by the static-override pass). -/
def setEntry (ch : List (String × Row)) (k : String) (r : Row) : List (String × Row) :=
  match ch with
  | [] => [(k, r)]
  | (k0, r0) :: t => if k0 = k then (k, r) :: t else (k0, r0) :: setEntry t k r

/-- Store one observed field into a custom-keybinding group. -/
def setCustomField (c : Custom) (key : String) (tval : String) : Custom :=
  if key = "binding" then { c with bind := tval }
  else if key = "name" then { c with name := tval }
  else if key = "command" then { c with cmd := tval }
  else c

/-- `customMap` update: get-or-create the group of the path key, then
store the observed field (the group is created even when the key is not
one of the three recognised ones, exactly as in the source). -/
def updateCustom (cs : List (String × Custom)) (p : String) (key : String) (tval : String) :
    List (String × Custom) :=
  match cs with
  | [] => [(p, setCustomField emptyCustom key tval)]
  | (q, c) :: t =>
    if q = p then (p, setCustomField c key tval) :: t
    else (q, c) :: updateCustom t p key tval

/-! ### The collection pass (`collect`) -/

/-- The single-quote character (the quote of `quoteRE`). -/
def quoteChar : Char := Char.ofNat 39

/-- `quoteRE.FindAllStringSubmatch` for `'([^']*)'`: the contents of
successive non-overlapping single-quoted runs, left to right; an
unmatched opening quote ends the scan (no closing quote remains).
Fuel-driven structural recursion, fuel = input length. -/
def quotedAux : Nat → List Char → List String
  | 0, _ => []
  | _ + 1, [] => []
  | fuel + 1, c :: rest =>
    if c = quoteChar then
      if rest.contains quoteChar then
        (⟨rest.takeWhile (fun d => d ≠ quoteChar)⟩ : String) ::
          quotedAux fuel ((rest.dropWhile (fun d => d ≠ quoteChar)).drop 1)
      else []
    else quotedAux fuel rest

/-- All quoted accelerator specs embedded in a `gsettings` value. -/
def quotedSpecs (s : String) : List String := quotedAux s.data.length s.data

/-- The state threaded through the line scan: the `chosen` map and the
`customMap`. -/
structure CState where
  chosen : List (String × Row)
  customs : List (String × Custom)
deriving Repr

/-- One iteration of the `sc.Scan()` loop of `collect`: split the line
into fields, skip short lines, route custom-keybinding lines into the
`customMap`, skip non-keybinding schemas, and fold every quoted spec of
the value into the `chosen` map under the `(rank, order)` rule. -/
def processLine (lbl : String → String) (ord : String → String → Nat)
    (st : CState) (line : String) : CState :=
  match fields line with
  | schema :: key :: v0 :: vrest =>
    let val := joinSep " " (v0 :: vrest)
    if containsS schema ".custom-keybinding" then
      { st with customs := updateCustom st.customs (afterColon schema) key (trimCut val [quoteChar]) }
    else if !containsS schema "keybinding" then st
    else
      let ar := classify schema key
      let o := ord schema key
      { st with chosen := (quotedSpecs val).foldl (fun ch spec =>
          match fmtAccel spec lbl with
          | none => ch
          | some acc => updateChosen ch acc ⟨acc, ar.1, humanise key, ar.2, o⟩) st.chosen }
  | _ => st

/-- The full line scan, from the empty maps. -/
def schemaPhase (lbl : String → String) (ord : String → String → Nat)
    (lines : List String) : CState :=
  lines.foldl (processLine lbl ord) ⟨[], []⟩

/-- Materialisation of one custom group: needs a normalisable binding
spec, never replaces an occupied accelerator slot, defaults the
application label to `"Custom"` when the humanised command basename is
empty and the action label to the raw command when the humanised name
is empty; custom rows carry rank 3 and order 0. -/
def mkCustomRow (c : Custom) (acc : String) : Row :=
  let app0 := humanise (baseName c.cmd)
  let app := if app0 = "" then "Custom" else app0
  let act0 := humanise c.name
  let act := if act0 = "" then c.cmd else act0
  ⟨acc, app, act, customRank, 0⟩

/-- The `for _, c := range customMap` body. -/
def addCustom (lbl : String → String) (ch : List (String × Row)) (c : Custom) :
    List (String × Row) :=
  match fmtAccel c.bind lbl with
  | none => ch
  | some acc =>
    match lookupRow ch acc with
    | some _ => ch
    | none => ch ++ [(acc, mkCustomRow c acc)]

/-- The custom-binding pass over the assembled groups (the Go map is
iterated here in first-observation order of the path keys; Go leaves
that order unspecified, and every theorem below is robust to it). -/
def customPhase (lbl : String → String) (ch : List (String × Row))
    (customs : List (String × Custom)) : List (String × Row) :=
  customs.foldl (fun ch p => addCustom lbl ch p.2) ch

/-- The static-override entries actually stored by the final pass of
`collect`: index `i` in the table becomes the intra-rank order, the
rank is `-1`, the application label `"Window Manager"`; entries whose
spec does not normalise are skipped. -/
def staticEntriesAux (lbl : String → String) : Nat → List StaticBind → List (String × Row)
  | _, [] => []
  | i, sb :: t =>
    match fmtAccel sb.spec lbl with
    | none => staticEntriesAux lbl (i + 1) t
    | some acc => (acc, ⟨acc, "Window Manager", sb.action, -1, i⟩) :: staticEntriesAux lbl (i + 1) t

/-- The static-override entries of `coreShortcuts` under a label table. -/
def staticEntries (lbl : String → String) : List (String × Row) :=
  staticEntriesAux lbl 0 coreShortcuts

/-- The final, unconditional static-override pass
(`chosen[acc] = row` for every table entry, in table order). -/
def staticPhase (lbl : String → String) (ch : List (String × Row)) : List (String × Row) :=
  (staticEntries lbl).foldl (fun ch p => setEntry ch p.1 p.2) ch

/-- The fully resolved `chosen` map of one `collect` run. -/
def finalChosen (lbl : String → String) (ord : String → String → Nat)
    (lines : List String) : List (String × Row) :=
  let st := schemaPhase lbl ord lines
  staticPhase lbl (customPhase lbl st.chosen st.customs)

/-- `collect`: the list of winning rows (one per canonical
accelerator).  The Go source emits the map values in unspecified order;
here they come out in insertion order, and all theorems below are
stated order-insensitively. -/
def collect (lbl : String → String) (ord : String → String → Nat)
    (lines : List String) : List Row :=
  (finalChosen lbl ord lines).map Prod.snd

/-! ### Invariants of the `chosen` association list -/

/-- The keys of the `chosen` list are distinct (it models a Go map). -/
def keysND (l : List (String × Row)) : Prop := (l.map Prod.fst).Nodup

/-- Every stored row carries its own key as its accelerator. -/
def accInv (l : List (String × Row)) : Prop := ∀ p ∈ l, (Prod.snd p).accel = p.1

/-- Every key of the `chosen` list is the successful normalisation of
some raw accelerator spec. -/
def keyProv (lbl : String → String) (l : List (String × Row)) : Prop :=
  ∀ p ∈ l, ∃ spec, fmtAccel spec lbl = some p.1

theorem lookupRow_setEntry (ch : List (String × Row)) (k : String) (r : Row) (a : String) :
    lookupRow (setEntry ch k r) a = if k = a then some r else lookupRow ch a := by
  induction ch with
  | nil => simp only [setEntry, lookupRow]
  | cons p t ih =>
    obtain ⟨k0, r0⟩ := p
    by_cases h : k0 = k
    · subst h
      by_cases ha : k0 = a <;> simp [setEntry, lookupRow, ha]
    · by_cases ha : k0 = a
      · subst ha
        simp [setEntry, lookupRow, h, Ne.symm h]
      · simp [setEntry, lookupRow, h, ha, ih]

theorem lookupRow_updateChosen (ch : List (String × Row)) (acc : String) (r : Row) (a : String) :
    lookupRow (updateChosen ch acc r) a =
      if acc = a then
        match lookupRow ch acc with
        | none => some r
        | some old => some (if better r old then r else old)
      else lookupRow ch a := by
  induction ch with
  | nil =>
    by_cases ha : acc = a <;> simp [updateChosen, lookupRow, ha]
  | cons p t ih =>
    obtain ⟨k0, r0⟩ := p
    by_cases h : k0 = acc
    · subst h
      by_cases ha : k0 = a
      · subst ha
        by_cases hb : better r r0 <;> simp [updateChosen, lookupRow, hb]
      · by_cases hb : better r r0 <;> simp [updateChosen, lookupRow, hb, ha, Ne.symm ha]
    · by_cases ha : k0 = a
      · subst ha
        have hne : acc ≠ k0 := fun e => h e.symm
        simp [updateChosen, lookupRow, h, hne]
      · simp [updateChosen, lookupRow, h, ha, ih]

theorem lookupRow_append (l1 l2 : List (String × Row)) (a : String) :
    lookupRow (l1 ++ l2) a =
      match lookupRow l1 a with
      | some r => some r
      | none => lookupRow l2 a := by
  induction l1 with
  | nil => simp [lookupRow]
  | cons p t ih =>
    obtain ⟨k, r⟩ := p
    by_cases h : k = a <;> simp [lookupRow, h, ih]

theorem lookupRow_eq_none_iff (l : List (String × Row)) (a : String) :
    lookupRow l a = none ↔ a ∉ l.map Prod.fst := by
  induction l with
  | nil => simp [lookupRow]
  | cons p t ih =>
    obtain ⟨k, r⟩ := p
    by_cases h : k = a
    · subst h; simp [lookupRow]
    · simp only [lookupRow, if_neg h, List.map_cons, List.mem_cons, ih]
      constructor
      · intro hn hor
        rcases hor with he | hm
        · exact h he.symm
        · exact hn hm
      · intro hn hm
        exact hn (Or.inr hm)

theorem lookupRow_mem {l : List (String × Row)} {a : String} {r : Row}
    (h : lookupRow l a = some r) : (a, r) ∈ l := by
  induction l with
  | nil => simp [lookupRow] at h
  | cons p t ih =>
    obtain ⟨k, r0⟩ := p
    by_cases hk : k = a
    · subst hk
      simp [lookupRow] at h
      subst h; exact List.mem_cons_self _ _
    · simp only [lookupRow, if_neg hk] at h
      exact List.mem_cons_of_mem _ (ih h)

theorem lookupRow_of_mem_nodup {l : List (String × Row)} {a : String} {r : Row}
    (hnd : keysND l) (hmem : (a, r) ∈ l) : lookupRow l a = some r := by
  induction l with
  | nil => simp at hmem
  | cons p t ih =>
    obtain ⟨k, r0⟩ := p
    have hnd' : keysND t := (List.nodup_cons.mp hnd).2
    rcases List.mem_cons.mp hmem with h | h
    · injection h with h1 h2
      subst h1; subst h2
      simp [lookupRow]
    · have hk : k ≠ a := by
        intro e
        subst e
        exact (List.nodup_cons.mp hnd).1 (List.mem_map.mpr ⟨(k, r), h, rfl⟩)
      simp [lookupRow, hk, ih hnd' h]

theorem mem_setEntry {ch : List (String × Row)} {k : String} {r : Row} {q : String × Row}
    (h : q ∈ setEntry ch k r) : q ∈ ch ∨ q = (k, r) := by
  induction ch with
  | nil => simp [setEntry] at h; right; exact h
  | cons p t ih =>
    obtain ⟨k0, r0⟩ := p
    by_cases hk : k0 = k
    · subst hk
      simp only [setEntry, if_pos rfl] at h
      rcases List.mem_cons.mp h with h | h
      · right; exact h
      · left; exact List.mem_cons_of_mem _ h
    · simp only [setEntry, if_neg hk] at h
      rcases List.mem_cons.mp h with h | h
      · left; exact h ▸ List.mem_cons_self _ _
      · rcases ih h with h | h
        · left; exact List.mem_cons_of_mem _ h
        · right; exact h

theorem mem_updateChosen {ch : List (String × Row)} {acc : String} {r : Row} {q : String × Row}
    (h : q ∈ updateChosen ch acc r) : q ∈ ch ∨ q = (acc, r) := by
  induction ch with
  | nil => simp [updateChosen] at h; right; exact h
  | cons p t ih =>
    obtain ⟨k0, r0⟩ := p
    by_cases hk : k0 = acc
    · subst hk
      by_cases hb : better r r0
      · simp only [updateChosen, if_pos rfl, if_pos hb] at h
        rcases List.mem_cons.mp h with h | h
        · right; exact h
        · left; exact List.mem_cons_of_mem _ h
      · simp only [updateChosen, if_pos rfl, if_neg hb] at h
        left; exact h
    · simp only [updateChosen, if_neg hk] at h
      rcases List.mem_cons.mp h with h | h
      · left; exact h ▸ List.mem_cons_self _ _
      · rcases ih h with h | h
        · left; exact List.mem_cons_of_mem _ h
        · right; exact h

theorem keys_setEntry_sub {ch : List (String × Row)} {k : String} {r : Row} {b : String}
    (h : b ∈ (setEntry ch k r).map Prod.fst) : b ∈ ch.map Prod.fst ∨ b = k := by
  rcases List.mem_map.mp h with ⟨q, hq, hb⟩
  rcases mem_setEntry hq with h1 | h1
  · exact Or.inl (hb ▸ List.mem_map.mpr ⟨q, h1, rfl⟩)
  · right; rw [← hb, h1]

theorem keys_updateChosen_sub {ch : List (String × Row)} {acc : String} {r : Row} {b : String}
    (h : b ∈ (updateChosen ch acc r).map Prod.fst) : b ∈ ch.map Prod.fst ∨ b = acc := by
  rcases List.mem_map.mp h with ⟨q, hq, hb⟩
  rcases mem_updateChosen hq with h1 | h1
  · exact Or.inl (hb ▸ List.mem_map.mpr ⟨q, h1, rfl⟩)
  · right; rw [← hb, h1]

theorem keysND_setEntry {ch : List (String × Row)} (k : String) (r : Row)
    (hnd : keysND ch) : keysND (setEntry ch k r) := by
  induction ch with
  | nil => simp [setEntry, keysND]
  | cons p t ih =>
    obtain ⟨k0, r0⟩ := p
    obtain ⟨hni, hnd'⟩ := List.nodup_cons.mp hnd
    by_cases hk : k0 = k
    · subst hk
      simpa [setEntry, keysND] using hnd
    · simp only [setEntry, if_neg hk, keysND, List.map_cons]
      refine List.nodup_cons.mpr ⟨?_, ?_⟩
      · intro hmem
        rcases keys_setEntry_sub hmem with h | h
        · exact hni h
        · exact hk h
      · exact ih hnd'

theorem keysND_updateChosen {ch : List (String × Row)} (acc : String) (r : Row)
    (hnd : keysND ch) : keysND (updateChosen ch acc r) := by
  induction ch with
  | nil => simp [updateChosen, keysND]
  | cons p t ih =>
    obtain ⟨k0, r0⟩ := p
    obtain ⟨hni, hnd'⟩ := List.nodup_cons.mp hnd
    by_cases hk : k0 = acc
    · subst hk
      by_cases hb : better r r0
      · simpa [updateChosen, hb, keysND] using hnd
      · simpa [updateChosen, hb, keysND] using hnd
    · simp only [updateChosen, if_neg hk, keysND, List.map_cons]
      refine List.nodup_cons.mpr ⟨?_, ?_⟩
      · intro hmem
        rcases keys_updateChosen_sub hmem with h | h
        · exact hni h
        · exact hk h
      · exact ih hnd'

/-! ### The per-accelerator resolution order -/

/-- The fold the resolver effectively performs on the candidate rows of
one canonical accelerator, in processing order: keep the first-seen
record, replace it only by a strictly `better` one. -/
def resolveRows (o : Option Row) (l : List Row) : Option Row :=
  l.foldl (fun o r =>
    match o with
    | none => some r
    | some old => some (if better r old then r else old)) o

/-- Non-strict lexicographic comparison of `(rank, order)` pairs. -/
def pairLE (x y : Row) : Prop := x.rank < y.rank ∨ (x.rank = y.rank ∧ x.order ≤ y.order)

theorem pairLE_refl (x : Row) : pairLE x x := Or.inr ⟨rfl, le_refl _⟩

theorem pairLE_trans {x y z : Row} (h1 : pairLE x y) (h2 : pairLE y z) : pairLE x z := by
  rcases h1 with h1 | ⟨h1, h1o⟩ <;> rcases h2 with h2 | ⟨h2, h2o⟩
  · exact Or.inl (lt_trans h1 h2)
  · exact Or.inl (h2 ▸ h1)
  · exact Or.inl (h1 ▸ h2)
  · exact Or.inr ⟨h1.trans h2, le_trans h1o h2o⟩

theorem pairLE_of_better {x y : Row} (h : better x y) : pairLE x y := by
  rcases h with h | ⟨h, ho⟩
  · exact Or.inl h
  · exact Or.inr ⟨h, le_of_lt ho⟩

theorem pairLE_of_not_better {x y : Row} (h : ¬ better x y) : pairLE y x := by
  unfold better at h
  push_neg at h
  by_cases he : x.rank = y.rank
  · exact Or.inr ⟨he.symm, h.2 he⟩
  · exact Or.inl (lt_of_le_of_ne h.1 (fun e => he e.symm))

theorem resolveRows_some (m : Row) (l : List Row) : ∃ w, resolveRows (some m) l = some w := by
  induction l generalizing m with
  | nil => exact ⟨m, rfl⟩
  | cons r t ih => exact ih (if better r m then r else m)

theorem resolveRows_mem {o : Option Row} {l : List Row} {w : Row}
    (h : resolveRows o l = some w) : w ∈ l ∨ o = some w := by
  induction l generalizing o with
  | nil => exact Or.inr h
  | cons r t ih =>
    match o with
    | none =>
      rcases ih (by simpa [resolveRows] using h) with h1 | h1
      · exact Or.inl (List.mem_cons_of_mem _ h1)
      · have hr : r = w := Option.some.inj h1
        exact Or.inl (hr ▸ List.mem_cons_self _ _)
    | some old =>
      rcases ih (by simpa [resolveRows] using h) with h1 | h1
      · exact Or.inl (List.mem_cons_of_mem _ h1)
      · have := Option.some.inj h1
        by_cases hb : better r old
        · simp only [hb, if_pos] at this
          exact Or.inl (this ▸ List.mem_cons_self _ _)
        · simp only [hb, if_neg, ite_false] at this
          exact Or.inr (by rw [this])

theorem resolveRows_min {m : Row} {l : List Row} {w : Row}
    (h : resolveRows (some m) l = some w) : pairLE w m ∧ ∀ x ∈ l, pairLE w x := by
  induction l generalizing m with
  | nil =>
    have := Option.some.inj h
    subst this
    exact ⟨pairLE_refl _, by simp⟩
  | cons r t ih =>
    have h' : resolveRows (some (if better r m then r else m)) t = some w := by
      simpa [resolveRows] using h
    obtain ⟨hm', hall⟩ := ih h'
    by_cases hb : better r m
    · simp only [if_pos hb] at hm'
      refine ⟨pairLE_trans hm' (pairLE_of_better hb), ?_⟩
      intro x hx
      rcases List.mem_cons.mp hx with hx | hx
      · exact hx ▸ hm'
      · exact hall x hx
    · simp only [if_neg hb] at hm'
      refine ⟨hm', ?_⟩
      intro x hx
      rcases List.mem_cons.mp hx with hx | hx
      · exact hx ▸ pairLE_trans hm' (pairLE_of_not_better hb)
      · exact hall x hx

/-! ### Candidate extraction and the schema-phase characterisation -/

/-- The candidate insertions one dump line feeds into the `chosen`
map: nothing for short, custom-keybinding or non-keybinding lines,
otherwise one `(canonical accelerator, record)` pair per quoted spec of
the value that normalises. -/
def lineCands (lbl : String → String) (ord : String → String → Nat)
    (line : String) : List (String × Row) :=
  match fields line with
  | schema :: key :: v0 :: vrest =>
    let val := joinSep " " (v0 :: vrest)
    if containsS schema ".custom-keybinding" then []
    else if !containsS schema "keybinding" then []
    else
      let ar := classify schema key
      let o := ord schema key
      (quotedSpecs val).filterMap (fun spec =>
        (fmtAccel spec lbl).map (fun acc => (acc, (⟨acc, ar.1, humanise key, ar.2, o⟩ : Row))))
  | _ => []

/-- All schema candidate rows of the dump for one canonical
accelerator, in processing order. -/
def candRows (lbl : String → String) (ord : String → String → Nat)
    (lines : List String) (a : String) : List Row :=
  (((lines.bind (lineCands lbl ord)).filter (fun p => decide (p.1 = a))).map Prod.snd)

theorem foldl_filterMap {α β σ : Type} (g : α → Option β) (f : σ → β → σ)
    (l : List α) (init : σ) :
    (l.filterMap g).foldl f init =
      l.foldl (fun st x =>
        match g x with
        | none => st
        | some y => f st y) init := by
  induction l generalizing init with
  | nil => rfl
  | cons x t ih =>
    cases hx : g x <;> simp [List.filterMap_cons, hx, ih]

theorem processLine_chosen (lbl : String → String) (ord : String → String → Nat)
    (st : CState) (line : String) :
    (processLine lbl ord st line).chosen =
      (lineCands lbl ord line).foldl (fun ch p => updateChosen ch p.1 p.2) st.chosen := by
  unfold processLine lineCands
  cases hf : fields line with
  | nil => rfl
  | cons schema t0 =>
    cases t0 with
    | nil => rfl
    | cons key t1 =>
      cases t1 with
      | nil => rfl
      | cons v0 vrest =>
        by_cases hc : containsS schema ".custom-keybinding"
        · simp [hc]
        · by_cases hk : containsS schema "keybinding"
          · simp only [hc, hk, Bool.not_true, Bool.false_eq_true, if_false, ite_false]
            rw [foldl_filterMap]
            congr 1
            funext ch spec
            cases hfa : fmtAccel spec lbl <;> simp [hfa]
          · simp [hc, hk]

theorem processLine_customs (lbl : String → String) (ord : String → String → Nat)
    (st : CState) (line : String) :
    (processLine lbl ord st line).customs =
      match fields line with
      | schema :: key :: v0 :: vrest =>
        if containsS schema ".custom-keybinding" then
          updateCustom st.customs (afterColon schema) key
            (trimCut (joinSep " " (v0 :: vrest)) [quoteChar])
        else st.customs
      | _ => st.customs := by
  unfold processLine
  cases hf : fields line with
  | nil => rfl
  | cons schema t0 =>
    cases t0 with
    | nil => rfl
    | cons key t1 =>
      cases t1 with
      | nil => rfl
      | cons v0 vrest =>
        by_cases hc : containsS schema ".custom-keybinding"
        · simp [hc]
        · by_cases hk : containsS schema "keybinding" <;> simp [hc, hk]

theorem resolveRows_cons (o : Option Row) (r : Row) (rest : List Row) :
    resolveRows o (r :: rest) =
      resolveRows (match o with
        | none => some r
        | some old => some (if better r old then r else old)) rest := rfl

theorem lookup_foldl_update (cands : List (String × Row)) (ch : List (String × Row)) (a : String) :
    lookupRow (cands.foldl (fun ch p => updateChosen ch p.1 p.2) ch) a =
      resolveRows (lookupRow ch a) ((cands.filter (fun p => decide (p.1 = a))).map Prod.snd) := by
  induction cands generalizing ch with
  | nil => rfl
  | cons p t ih =>
    obtain ⟨k, r⟩ := p
    by_cases hk : k = a
    · subst hk
      have hfil : List.filter (fun p => decide (p.1 = k)) ((k, r) :: t) =
          (k, r) :: List.filter (fun p => decide (p.1 = k)) t := by
        simp [List.filter_cons]
      simp only [List.foldl_cons, hfil, List.map_cons]
      rw [ih, resolveRows_cons]
      congr 1
      rw [lookupRow_updateChosen, if_pos rfl]
    · have hfil : List.filter (fun p => decide (p.1 = a)) ((k, r) :: t) =
          List.filter (fun p => decide (p.1 = a)) t := by
        simp [List.filter_cons, hk]
      simp only [List.foldl_cons, hfil]
      rw [ih]
      congr 1
      rw [lookupRow_updateChosen, if_neg hk]

theorem schemaPhase_fold_lookup (lbl : String → String) (ord : String → String → Nat)
    (lines : List String) (a : String) :
    ∀ st : CState,
      lookupRow ((lines.foldl (processLine lbl ord) st).chosen) a =
        resolveRows (lookupRow st.chosen a) (candRows lbl ord lines a) := by
  induction lines with
  | nil => intro st; rfl
  | cons line rest ih =>
    intro st
    rw [List.foldl_cons, ih]
    have hc : candRows lbl ord (line :: rest) a =
        ((lineCands lbl ord line).filter (fun p => decide (p.1 = a))).map Prod.snd ++
          candRows lbl ord rest a := by
      simp [candRows, List.cons_bind, List.filter_append]
    rw [hc]
    unfold resolveRows
    rw [List.foldl_append]
    congr 1
    rw [processLine_chosen, lookup_foldl_update]
    rfl

theorem schemaPhase_lookup (lbl : String → String) (ord : String → String → Nat)
    (lines : List String) (a : String) :
    lookupRow (schemaPhase lbl ord lines).chosen a =
      resolveRows none (candRows lbl ord lines a) := by
  unfold schemaPhase
  rw [schemaPhase_fold_lookup]
  rfl

/-! ### Invariant preservation through the three passes -/

theorem lineCands_key {lbl : String → String} {ord : String → String → Nat}
    {line : String} {p : String × Row} (h : p ∈ lineCands lbl ord line) :
    p.2.accel = p.1 ∧ ∃ spec, fmtAccel spec lbl = some p.1 := by
  unfold lineCands at h
  rcases hf : fields line with _ | ⟨schema, _ | ⟨key, _ | ⟨v0, vrest⟩⟩⟩ <;> rw [hf] at h <;>
    try (exact absurd h (List.not_mem_nil p))
  by_cases hc : containsS schema ".custom-keybinding"
  · simp [hc] at h
  · by_cases hk : containsS schema "keybinding"
    · simp only [hc, hk, Bool.not_true, Bool.false_eq_true, if_false, ite_false] at h
      rcases List.mem_filterMap.mp h with ⟨spec, _, hmap⟩
      rcases Option.map_eq_some'.mp hmap with ⟨acc, hacc, hp⟩
      subst hp
      exact ⟨rfl, spec, hacc⟩
    · simp [hc, hk] at h

theorem accInv_updateChosen {ch : List (String × Row)} {acc : String} {r : Row}
    (hch : accInv ch) (hr : r.accel = acc) : accInv (updateChosen ch acc r) := by
  intro q hq
  rcases mem_updateChosen hq with h | h
  · exact hch q h
  · subst h; exact hr

theorem accInv_setEntry {ch : List (String × Row)} {k : String} {r : Row}
    (hch : accInv ch) (hr : r.accel = k) : accInv (setEntry ch k r) := by
  intro q hq
  rcases mem_setEntry hq with h | h
  · exact hch q h
  · subst h; exact hr

theorem keyProv_updateChosen {lbl : String → String} {ch : List (String × Row)}
    {acc : String} {r : Row} (hch : keyProv lbl ch)
    (hacc : ∃ spec, fmtAccel spec lbl = some acc) : keyProv lbl (updateChosen ch acc r) := by
  intro q hq
  rcases mem_updateChosen hq with h | h
  · exact hch q h
  · subst h; exact hacc

theorem keyProv_setEntry {lbl : String → String} {ch : List (String × Row)}
    {k : String} {r : Row} (hch : keyProv lbl ch)
    (hacc : ∃ spec, fmtAccel spec lbl = some k) : keyProv lbl (setEntry ch k r) := by
  intro q hq
  rcases mem_setEntry hq with h | h
  · exact hch q h
  · subst h; exact hacc

theorem inv_foldl_update (lbl : String → String) (cands : List (String × Row))
    (ch : List (String × Row))
    (hc : ∀ p ∈ cands, p.2.accel = p.1 ∧ ∃ spec, fmtAccel spec lbl = some p.1)
    (h1 : accInv ch) (h2 : keysND ch) (h3 : keyProv lbl ch) :
    accInv (cands.foldl (fun ch p => updateChosen ch p.1 p.2) ch) ∧
    keysND (cands.foldl (fun ch p => updateChosen ch p.1 p.2) ch) ∧
    keyProv lbl (cands.foldl (fun ch p => updateChosen ch p.1 p.2) ch) := by
  induction cands generalizing ch with
  | nil => exact ⟨h1, h2, h3⟩
  | cons p t ih =>
    obtain ⟨hp1, hp2⟩ := hc p (List.mem_cons_self _ _)
    exact ih (updateChosen ch p.1 p.2) (fun q hq => hc q (List.mem_cons_of_mem _ hq))
      (accInv_updateChosen h1 hp1) (keysND_updateChosen _ _ h2)
      (keyProv_updateChosen h3 hp2)

theorem inv_schemaPhase (lbl : String → String) (ord : String → String → Nat)
    (lines : List String) :
    accInv (schemaPhase lbl ord lines).chosen ∧
    keysND (schemaPhase lbl ord lines).chosen ∧
    keyProv lbl (schemaPhase lbl ord lines).chosen := by
  suffices h : ∀ st : CState, accInv st.chosen → keysND st.chosen → keyProv lbl st.chosen →
      accInv (lines.foldl (processLine lbl ord) st).chosen ∧
      keysND (lines.foldl (processLine lbl ord) st).chosen ∧
      keyProv lbl (lines.foldl (processLine lbl ord) st).chosen by
    exact h ⟨[], []⟩ (by intro q hq; simp at hq) (by simp [keysND]) (by intro q hq; simp at hq)
  induction lines with
  | nil => intro st h1 h2 h3; exact ⟨h1, h2, h3⟩
  | cons line rest ih =>
    intro st h1 h2 h3
    rw [List.foldl_cons]
    have hch := processLine_chosen lbl ord st line
    have hinv := inv_foldl_update lbl (lineCands lbl ord line) st.chosen
      (fun p hp => lineCands_key hp) h1 h2 h3
    refine ih (processLine lbl ord st line) ?_ ?_ ?_ <;> rw [hch]
    · exact hinv.1
    · exact hinv.2.1
    · exact hinv.2.2

/-- The materialised custom rows of the assembled groups, keyed by
canonical accelerator, in group order. -/
def customRowsOf (lbl : String → String) (cs : List (String × Custom)) :
    List (String × Row) :=
  cs.filterMap (fun p => (fmtAccel p.2.bind lbl).map (fun acc => (acc, mkCustomRow p.2 acc)))

theorem inv_addCustom (lbl : String → String) (ch : List (String × Row)) (c : Custom)
    (h1 : accInv ch) (h2 : keysND ch) (h3 : keyProv lbl ch) :
    accInv (addCustom lbl ch c) ∧ keysND (addCustom lbl ch c) ∧
      keyProv lbl (addCustom lbl ch c) := by
  cases hacc : fmtAccel c.bind lbl with
  | none => simp only [addCustom, hacc]; exact ⟨h1, h2, h3⟩
  | some acc =>
    cases hlk : lookupRow ch acc with
    | some r => simp only [addCustom, hacc, hlk]; exact ⟨h1, h2, h3⟩
    | none =>
      simp only [addCustom, hacc, hlk]
      refine ⟨?_, ?_, ?_⟩
      · intro q hq
        rcases List.mem_append.mp hq with h | h
        · exact h1 q h
        · rw [List.mem_singleton.mp h]; rfl
      · unfold keysND
        rw [List.map_append]
        refine List.nodup_append.mpr ⟨h2, List.nodup_singleton _, ?_⟩
        intro b hb
        simp only [List.map_cons, List.map_nil, List.mem_singleton]
        exact fun e => (lookupRow_eq_none_iff ch acc).mp hlk (e ▸ hb)
      · intro q hq
        rcases List.mem_append.mp hq with h | h
        · exact h3 q h
        · rw [List.mem_singleton.mp h]; exact ⟨c.bind, hacc⟩

theorem inv_customPhase (lbl : String → String) (cs : List (String × Custom))
    (ch : List (String × Row)) (h1 : accInv ch) (h2 : keysND ch) (h3 : keyProv lbl ch) :
    accInv (customPhase lbl ch cs) ∧ keysND (customPhase lbl ch cs) ∧
      keyProv lbl (customPhase lbl ch cs) := by
  induction cs generalizing ch with
  | nil => exact ⟨h1, h2, h3⟩
  | cons p t ih =>
    obtain ⟨g1, g2, g3⟩ := inv_addCustom lbl ch p.2 h1 h2 h3
    exact ih (addCustom lbl ch p.2) g1 g2 g3

theorem staticEntriesAux_spec {lbl : String → String} :
    ∀ (i : Nat) (l : List StaticBind) (p : String × Row), p ∈ staticEntriesAux lbl i l →
      p.2.accel = p.1 ∧ ∃ sb ∈ l, fmtAccel sb.spec lbl = some p.1 := by
  intro i l
  induction l generalizing i with
  | nil => intro p hp; simp [staticEntriesAux] at hp
  | cons sb t ih =>
    intro p hp
    unfold staticEntriesAux at hp
    cases hacc : fmtAccel sb.spec lbl with
    | none =>
      rw [hacc] at hp
      obtain ⟨g1, sb2, hsb2, hf⟩ := ih (i + 1) p hp
      exact ⟨g1, sb2, List.mem_cons_of_mem _ hsb2, hf⟩
    | some acc =>
      rw [hacc] at hp
      rcases List.mem_cons.mp hp with h | h
      · subst h
        exact ⟨rfl, sb, List.mem_cons_self _ _, hacc⟩
      · obtain ⟨g1, sb2, hsb2, hf⟩ := ih (i + 1) p h
        exact ⟨g1, sb2, List.mem_cons_of_mem _ hsb2, hf⟩

theorem inv_setEntry_fold (lbl : String → String) (entries : List (String × Row))
    (ch : List (String × Row))
    (hc : ∀ p ∈ entries, p.2.accel = p.1 ∧ ∃ spec, fmtAccel spec lbl = some p.1)
    (h1 : accInv ch) (h2 : keysND ch) (h3 : keyProv lbl ch) :
    accInv (entries.foldl (fun ch p => setEntry ch p.1 p.2) ch) ∧
    keysND (entries.foldl (fun ch p => setEntry ch p.1 p.2) ch) ∧
    keyProv lbl (entries.foldl (fun ch p => setEntry ch p.1 p.2) ch) := by
  induction entries generalizing ch with
  | nil => exact ⟨h1, h2, h3⟩
  | cons p t ih =>
    obtain ⟨hp1, hp2⟩ := hc p (List.mem_cons_self _ _)
    exact ih (setEntry ch p.1 p.2) (fun q hq => hc q (List.mem_cons_of_mem _ hq))
      (accInv_setEntry h1 hp1) (keysND_setEntry _ _ h2) (keyProv_setEntry h3 hp2)

theorem inv_finalChosen (lbl : String → String) (ord : String → String → Nat)
    (lines : List String) :
    accInv (finalChosen lbl ord lines) ∧ keysND (finalChosen lbl ord lines) ∧
      keyProv lbl (finalChosen lbl ord lines) := by
  obtain ⟨h1, h2, h3⟩ := inv_schemaPhase lbl ord lines
  obtain ⟨g1, g2, g3⟩ := inv_customPhase lbl (schemaPhase lbl ord lines).customs
    (schemaPhase lbl ord lines).chosen h1 h2 h3
  exact inv_setEntry_fold lbl (staticEntries lbl) _
    (fun p hp => (staticEntriesAux_spec 0 coreShortcuts p hp).imp id
      (fun ⟨sb, _, hf⟩ => ⟨sb.spec, hf⟩)) g1 g2 g3

/-! ### How the custom and static passes interact with occupied slots -/

theorem addCustom_preserve {lbl : String → String} {ch : List (String × Row)}
    {a : String} {r : Row} (c : Custom) (h : lookupRow ch a = some r) :
    lookupRow (addCustom lbl ch c) a = some r := by
  cases hacc : fmtAccel c.bind lbl with
  | none => simpa only [addCustom, hacc] using h
  | some acc =>
    cases hlk : lookupRow ch acc with
    | some r0 => simpa only [addCustom, hacc, hlk] using h
    | none =>
      simp only [addCustom, hacc, hlk]
      rw [lookupRow_append, h]

theorem customPhase_preserve {lbl : String → String} {cs : List (String × Custom)}
    {ch : List (String × Row)} {a : String} {r : Row} (h : lookupRow ch a = some r) :
    lookupRow (customPhase lbl ch cs) a = some r := by
  induction cs generalizing ch with
  | nil => exact h
  | cons p t ih => exact ih (addCustom_preserve p.2 h)

theorem customPhase_fill {lbl : String → String} {cs : List (String × Custom)}
    {ch : List (String × Row)} {a : String} {r : Row}
    (hnone : lookupRow ch a = none)
    (hfil : (customRowsOf lbl cs).filter (fun p => decide (p.1 = a)) = [(a, r)]) :
    lookupRow (customPhase lbl ch cs) a = some r := by
  induction cs generalizing ch with
  | nil => simp [customRowsOf] at hfil
  | cons p t ih =>
    unfold customPhase
    rw [List.foldl_cons]
    cases hacc : fmtAccel p.2.bind lbl with
    | none =>
      have hct : (customRowsOf lbl t).filter (fun p => decide (p.1 = a)) = [(a, r)] := by
        rw [← hfil]
        simp [customRowsOf, List.filterMap_cons, hacc]
      have hnone2 : lookupRow (addCustom lbl ch p.2) a = none := by
        simpa only [addCustom, hacc] using hnone
      exact ih hnone2 hct
    | some acc =>
      by_cases hka : acc = a
      · subst hka
        have hcons : (customRowsOf lbl (p :: t)).filter (fun q => decide (q.1 = acc)) =
            (acc, mkCustomRow p.2 acc) ::
              (customRowsOf lbl t).filter (fun q => decide (q.1 = acc)) := by
          simp [customRowsOf, List.filterMap_cons, hacc, List.filter_cons]
        rw [hcons] at hfil
        have hr : mkCustomRow p.2 acc = r := by
          have := List.head_eq_of_cons_eq hfil
          injection this
        have htail : (customRowsOf lbl t).filter (fun q => decide (q.1 = acc)) = [] :=
          List.tail_eq_of_cons_eq hfil
        have hstep : lookupRow (addCustom lbl ch p.2) acc = some r := by
          simp only [addCustom, hacc, hnone]
          rw [lookupRow_append, hnone, hr]
          simp [lookupRow]
        exact customPhase_preserve hstep
      · have hct : (customRowsOf lbl t).filter (fun q => decide (q.1 = a)) = [(a, r)] := by
          rw [← hfil]
          simp [customRowsOf, List.filterMap_cons, hacc, List.filter_cons, hka]
        have hnone2 : lookupRow (addCustom lbl ch p.2) a = none := by
          cases hlk : lookupRow ch acc with
          | some r0 => simpa only [addCustom, hacc, hlk] using hnone
          | none =>
            simp only [addCustom, hacc, hlk]
            rw [lookupRow_append, hnone]
            simp [lookupRow, hka]
        exact ih hnone2 hct

theorem setEntry_fold_nokey (entries : List (String × Row)) (ch : List (String × Row))
    (a : String) (h : ∀ p ∈ entries, p.1 ≠ a) :
    lookupRow (entries.foldl (fun ch p => setEntry ch p.1 p.2) ch) a = lookupRow ch a := by
  induction entries generalizing ch with
  | nil => rfl
  | cons p t ih =>
    rw [List.foldl_cons, ih _ (fun q hq => h q (List.mem_cons_of_mem _ hq)),
      lookupRow_setEntry, if_neg (h p (List.mem_cons_self _ _))]

theorem setEntry_fold_wins (entries : List (String × Row)) (ch : List (String × Row))
    {a : String} {r : Row} (hnd : (entries.map Prod.fst).Nodup) (hm : (a, r) ∈ entries) :
    lookupRow (entries.foldl (fun ch p => setEntry ch p.1 p.2) ch) a = some r := by
  induction entries generalizing ch with
  | nil => simp at hm
  | cons p t ih =>
    obtain ⟨hni, hnd'⟩ := List.nodup_cons.mp hnd
    rw [List.foldl_cons]
    rcases List.mem_cons.mp hm with h | h
    · have hkeys : ∀ q ∈ t, q.1 ≠ a := by
        intro q hq e
        apply hni
        rw [← h]
        exact e ▸ List.mem_map.mpr ⟨q, hq, rfl⟩
      rw [setEntry_fold_nokey t _ a hkeys, ← h, lookupRow_setEntry, if_pos rfl]
    · exact ih (setEntry ch p.1 p.2) hnd' h

theorem static_keys_ne {lbl : String → String} {a : String}
    (hstat : ∀ sb ∈ coreShortcuts, fmtAccel sb.spec lbl ≠ some a) :
    ∀ p ∈ staticEntries lbl, p.1 ≠ a := by
  intro p hp e
  obtain ⟨_, sb, hsb, hf⟩ := staticEntriesAux_spec 0 coreShortcuts p hp
  exact hstat sb hsb (e ▸ hf)

/-! ### The master resolution theorem and the `collect` bridge -/

theorem final_lookup_of_schema (lbl : String → String) (ord : String → String → Nat)
    (lines : List String) (a : String)
    (hstat : ∀ sb ∈ coreShortcuts, fmtAccel sb.spec lbl ≠ some a)
    (hne : candRows lbl ord lines a ≠ []) :
    lookupRow (finalChosen lbl ord lines) a = resolveRows none (candRows lbl ord lines a) := by
  obtain ⟨w, hw⟩ : ∃ w, resolveRows none (candRows lbl ord lines a) = some w := by
    rcases hcr : candRows lbl ord lines a with _ | ⟨c, t⟩
    · exact absurd hcr hne
    · rw [resolveRows_cons]
      exact resolveRows_some c t
  have h1 : lookupRow (schemaPhase lbl ord lines).chosen a = some w := by
    rw [schemaPhase_lookup, hw]
  unfold finalChosen staticPhase
  rw [setEntry_fold_nokey _ _ _ (static_keys_ne hstat), customPhase_preserve h1, hw]

theorem mem_collect_of_lookup {lbl : String → String} {ord : String → String → Nat}
    {lines : List String} {a : String} {r : Row}
    (h : lookupRow (finalChosen lbl ord lines) a = some r) :
    r ∈ collect lbl ord lines ∧ r.accel = a := by
  have hmem := lookupRow_mem h
  exact ⟨List.mem_map.mpr ⟨(a, r), hmem, rfl⟩, (inv_finalChosen lbl ord lines).1 (a, r) hmem⟩

theorem lookup_of_mem_collect {lbl : String → String} {ord : String → String → Nat}
    {lines : List String} {r : Row} (h : r ∈ collect lbl ord lines) :
    lookupRow (finalChosen lbl ord lines) r.accel = some r := by
  rcases List.mem_map.mp h with ⟨p, hp, he⟩
  obtain ⟨k, r0⟩ := p
  have hacc : r0.accel = k := (inv_finalChosen lbl ord lines).1 (k, r0) hp
  have he2 : r0 = r := he
  subst he2
  rw [hacc]
  exact lookupRow_of_mem_nodup (inv_finalChosen lbl ord lines).2.1 hp

/-! ### The claims -/

/-- C2: in the list of rows returned by `collect`, every canonical
accelerator string appears at most once — any two distinct rows of the
result differ in their `accel` field. -/
theorem c2_accels_unique : ∀ (lbl : String → String) (ord : String → String → Nat)
    (lines : List String),
    (collect lbl ord lines).Pairwise (fun r s => r.accel ≠ s.accel) := by
  intro lbl ord lines
  have hnd := (inv_finalChosen lbl ord lines).2.1
  have hacc := (inv_finalChosen lbl ord lines).1
  have hmapeq : (finalChosen lbl ord lines).map Prod.fst =
      (collect lbl ord lines).map Row.accel := by
    unfold collect
    rw [List.map_map]
    exact List.map_congr_left (fun p hp => (hacc p hp).symm)
  have hnd2 : ((collect lbl ord lines).map Row.accel).Nodup := hmapeq ▸ hnd
  exact List.pairwise_map.mp hnd2

/-- C5: `fmtAccel` rejects (returns `none`, the embedded
`("", false)`) exactly when the raw spec mentions a multimedia-key code
`XF86` or when tokenisation yields no tokens; in particular the empty
spec is rejected.  Rejection is a value, not an error: `fmtAccel` is a
total function. -/
theorem c5_fmtAccel_rejects_iff : ∀ (spec : String) (lbl : String → String),
    (fmtAccel spec lbl = none ↔
      (containsS spec "XF86" = true ∨ tokenize spec.data = [])) ∧
    fmtAccel "" lbl = none := by
  intro spec lbl
  constructor
  · unfold fmtAccel
    by_cases hx : containsS spec "XF86"
    · simp [hx]
    · by_cases ht : tokenize spec.data = []
      · simp [hx, ht]
      · simp [hx, ht, List.map_eq_nil]
  · rfl

/-- C6: no output row originates from a multimedia-key spec: any spec
containing `XF86` normalises to nothing (so it can never feed a schema,
custom or static row), and conversely every accelerator in the output
of `collect` is the normalisation of some spec free of `XF86`. -/
theorem c6_no_multimedia_rows :
    (∀ (lbl : String → String) (spec : String),
      containsS spec "XF86" = true → fmtAccel spec lbl = none) ∧
    (∀ (lbl : String → String) (ord : String → String → Nat) (lines : List String) (r : Row),
      r ∈ collect lbl ord lines →
      ∃ spec, fmtAccel spec lbl = some r.accel ∧ containsS spec "XF86" = false) := by
  constructor
  · intro lbl spec h
    unfold fmtAccel
    simp [h]
  · intro lbl ord lines r hr
    have hl := lookup_of_mem_collect hr
    have hmem := lookupRow_mem hl
    obtain ⟨spec, hspec⟩ := (inv_finalChosen lbl ord lines).2.2 (r.accel, r) hmem
    refine ⟨spec, hspec, ?_⟩
    cases h2 : containsS spec "XF86" with
    | false => rfl
    | true =>
      unfold fmtAccel at hspec
      simp [h2] at hspec

/-- Witness for C6 at concrete inputs: `XF86AudioPlay` is rejected, and
the `"Win"` row of an empty dump under the pc layout has an `XF86`-free
originating spec. -/
theorem c6_witness :
    fmtAccel "XF86AudioPlay" (modLabels kb.kbPC) = none ∧
    (∃ spec, fmtAccel spec (modLabels kb.kbPC) =
        some (Row.accel ⟨"Win", "Window Manager", "Show Activities / Search", -1, 0⟩) ∧
      containsS spec "XF86" = false) :=
  ⟨c6_no_multimedia_rows.1 (modLabels kb.kbPC) "XF86AudioPlay" (by decide),
   c6_no_multimedia_rows.2 (modLabels kb.kbPC) (fun _ _ => 0) []
     ⟨"Win", "Window Manager", "Show Activities / Search", -1, 0⟩ (by decide)⟩

/-- C8: the schema classifier is pure and total (a Lean function), and
always returns one of the four fixed ranks, ordered
window-manager < shell/media < application-specific < custom. -/
theorem c8_classify_total_ranks : ∀ (schema key : String),
    ((classify schema key).2 = wmRank ∨ (classify schema key).2 = shellRank ∨
      (classify schema key).2 = appRank ∨ (classify schema key).2 = customRank) ∧
    wmRank < shellRank ∧ shellRank < appRank ∧ appRank < customRank := by
  intro schema key
  refine ⟨?_, by decide, by decide, by decide⟩
  unfold classify
  split_ifs <;> simp

/-- C10: layout selection from `KEY_LAYOUT` is case-insensitive and
accepts the synonyms `mac`, `windows` and `chromebook`; any other value
selects no layout and falls through to the interactive prompt instead
of failing. -/
theorem c10_layout_env : ∀ (s : String) (p : kb),
    (layoutFromEnv s = some kb.kbApple ↔ (lowerStr s = "apple" ∨ lowerStr s = "mac")) ∧
    (layoutFromEnv s = some kb.kbPC ↔ (lowerStr s = "pc" ∨ lowerStr s = "windows")) ∧
    (layoutFromEnv s = some kb.kbChrome ↔ (lowerStr s = "chrome" ∨ lowerStr s = "chromebook")) ∧
    (layoutFromEnv s = none → layout s p = p) := by
  intro s p
  simp only [layoutFromEnv, layout]
  split_ifs with h1 h2 h3
  · simp_all
    rcases h1 with h | h <;> rw [h] <;>
      exact ⟨⟨by decide, by decide⟩, by decide, by decide⟩
  · simp_all
    rcases h2 with h | h <;> rw [h] <;> exact ⟨by decide, by decide⟩
  · simp_all
  · simp_all

/-- Witness for C10: `MAC` (upper case) selects the apple layout, and
an unrecognised value hands the choice to the prompt. -/
theorem c10_witness :
    layoutFromEnv "MAC" = some kb.kbApple ∧ layout "plugh" kb.kbChrome = kb.kbChrome :=
  ⟨(c10_layout_env "MAC" kb.kbPC).1.mpr (by decide),
   (c10_layout_env "plugh" kb.kbChrome).2.2.2 (by decide)⟩

/-- C7: on an empty settings dump, `collect` returns exactly the five
static-override rows, with the layout-specific modifier label
(`Win` / `Command` / `Search`), application label `"Window Manager"`,
the declared actions, rank `-1` and the table position as order. -/
theorem c7_empty_dump_statics : ∀ (ord : String → String → Nat),
    collect (modLabels kb.kbPC) ord [] =
      [⟨"Win", "Window Manager", "Show Activities / Search", -1, 0⟩,
       ⟨"Win + Left", "Window Manager", "Tile Window Left", -1, 1⟩,
       ⟨"Win + Right", "Window Manager", "Tile Window Right", -1, 2⟩,
       ⟨"Win + Up", "Window Manager", "Maximise Window", -1, 3⟩,
       ⟨"Win + Down", "Window Manager", "Restore / Minimise Window", -1, 4⟩] ∧
    collect (modLabels kb.kbApple) ord [] =
      [⟨"Command", "Window Manager", "Show Activities / Search", -1, 0⟩,
       ⟨"Command + Left", "Window Manager", "Tile Window Left", -1, 1⟩,
       ⟨"Command + Right", "Window Manager", "Tile Window Right", -1, 2⟩,
       ⟨"Command + Up", "Window Manager", "Maximise Window", -1, 3⟩,
       ⟨"Command + Down", "Window Manager", "Restore / Minimise Window", -1, 4⟩] ∧
    collect (modLabels kb.kbChrome) ord [] =
      [⟨"Search", "Window Manager", "Show Activities / Search", -1, 0⟩,
       ⟨"Search + Left", "Window Manager", "Tile Window Left", -1, 1⟩,
       ⟨"Search + Right", "Window Manager", "Tile Window Right", -1, 2⟩,
       ⟨"Search + Up", "Window Manager", "Maximise Window", -1, 3⟩,
       ⟨"Search + Down", "Window Manager", "Restore / Minimise Window", -1, 4⟩] := by
  intro ord
  exact ⟨rfl, rfl, rfl⟩

/-- C1: every static-override accelerator always resolves, in the
output of `collect`, to the statically declared action with application
label `"Window Manager"` (and the static rank `-1`), regardless of any
conflicting schema or custom candidate in the dump: the unique row
carrying that canonical accelerator is the static one. -/
theorem c1_static_override_wins : ∀ (k : kb) (ord : String → String → Nat)
    (lines : List String) (sb : StaticBind), sb ∈ coreShortcuts →
    ∃ acc, fmtAccel sb.spec (modLabels k) = some acc ∧
      (∃ r, r ∈ collect (modLabels k) ord lines ∧ r.accel = acc ∧
        r.app = "Window Manager" ∧ r.action = sb.action ∧ r.rank = -1) ∧
      (∀ r, r ∈ collect (modLabels k) ord lines → r.accel = acc →
        r.app = "Window Manager" ∧ r.action = sb.action ∧ r.rank = -1) := by
  intro k ord lines sb hsb
  have hnd : ((staticEntries (modLabels k)).map Prod.fst).Nodup := by
    cases k <;> decide
  have hsp : ∀ sb2 ∈ coreShortcuts, ∃ p ∈ staticEntries (modLabels k),
      fmtAccel sb2.spec (modLabels k) = some p.1 ∧ p.2.accel = p.1 ∧
        p.2.app = "Window Manager" ∧ p.2.action = sb2.action ∧ p.2.rank = -1 := by
    cases k <;> decide
  obtain ⟨p, hpmem, hf, hpacc, hpapp, hpact, hprank⟩ := hsp sb hsb
  obtain ⟨a, r⟩ := p
  have hlk : lookupRow (finalChosen (modLabels k) ord lines) a = some r := by
    unfold finalChosen staticPhase
    exact setEntry_fold_wins _ _ hnd hpmem
  obtain ⟨hmem, hacc⟩ := mem_collect_of_lookup hlk
  refine ⟨a, hf, ⟨r, hmem, hacc, hpapp, hpact, hprank⟩, ?_⟩
  intro r2 hr2 hacc2
  have h1 := lookup_of_mem_collect hr2
  rw [hacc2] at h1
  have he : r2 = r := Option.some.inj (h1.symm.trans hlk)
  subst he
  exact ⟨hpapp, hpact, hprank⟩

/-- Witness for C1: the second static entry under the pc layout, on the
empty dump. -/
theorem c1_witness :
    ∃ acc, fmtAccel "<Super>+Left" (modLabels kb.kbPC) = some acc ∧
      (∃ r, r ∈ collect (modLabels kb.kbPC) (fun _ _ => 0) [] ∧ r.accel = acc ∧
        r.app = "Window Manager" ∧ r.action = "Tile Window Left" ∧ r.rank = -1) ∧
      (∀ r, r ∈ collect (modLabels kb.kbPC) (fun _ _ => 0) [] → r.accel = acc →
        r.app = "Window Manager" ∧ r.action = "Tile Window Left" ∧ r.rank = -1) :=
  c1_static_override_wins kb.kbPC (fun _ _ => 0) []
    ⟨"<Super>+Left", "Tile Window Left"⟩ (by decide)

theorem resolveRows_none_min {l : List Row} {w : Row}
    (h : resolveRows none l = some w) : ∀ x ∈ l, pairLE w x := by
  cases l with
  | nil => simp [resolveRows] at h
  | cons c t =>
    rw [resolveRows_cons] at h
    obtain ⟨hm, hall⟩ := resolveRows_min h
    intro x hx
    rcases List.mem_cons.mp hx with hx | hx
    · exact hx ▸ hm
    · exact hall x hx

theorem resolveRows_none_mem {l : List Row} {w : Row}
    (h : resolveRows none l = some w) : w ∈ l := by
  rcases resolveRows_mem h with h1 | h1
  · exact h1
  · exact absurd h1 (by simp)

/-! ### Test fixtures (concrete dumps for counterexamples and witnesses) -/

/-- A one-character string holding the single quote, for building
concrete dump lines. -/
def sq : String := ⟨[quoteChar]⟩

/-- A `gsettings` list value holding one quoted spec. -/
def qspec (s : String) : String := "[" ++ sq ++ s ++ sq ++ "]"

/-- A constant order oracle (every key first in its schema). -/
def ordZero : String → String → Nat := fun _ _ => 0

/-- A dump with three schema sources of ranks 0, 1 and 2 all binding
`<Super>x`. -/
def linesC3 : List String :=
  ["org.gnome.desktop.wm.keybindings wmkey " ++ qspec "<Super>x",
   "org.gnome.shell.keybindings shellkey " ++ qspec "<Super>x",
   "org.gnome.foo.keybindings appkey " ++ qspec "<Super>x"]

/-- The same dump without the rank-0 source. -/
def linesC3w : List String :=
  ["org.gnome.shell.keybindings shellkey " ++ qspec "<Super>x",
   "org.gnome.foo.keybindings appkey " ++ qspec "<Super>x"]

/-- The rank-1 candidate row of `linesC3`. -/
def rShellC3 : Row := ⟨"Win + X", "GNOME Shell", "Shellkey", 1, 0⟩

/-- The rank-2 candidate row of `linesC3`. -/
def rAppC3 : Row := ⟨"Win + X", "Foo", "Appkey", 2, 0⟩

/-- An order oracle distinguishing the two same-rank keys of
`linesC4`. -/
def ordC4 : String → String → Nat :=
  fun _ k => if k = "keyA" then 7 else if k = "keyB" then 2 else 0

/-- A dump with one rank-0 candidate and two rank-1 candidates of
orders 7 and 2, all binding `<Super>x`. -/
def linesC4 : List String :=
  ["org.gnome.desktop.wm.keybindings wmkey " ++ qspec "<Super>x",
   "org.gnome.shell.keybindings keyA " ++ qspec "<Super>x",
   "org.gnome.shell.keybindings keyB " ++ qspec "<Super>x"]

/-- The same dump without the rank-0 source. -/
def linesC4w : List String :=
  ["org.gnome.shell.keybindings keyA " ++ qspec "<Super>x",
   "org.gnome.shell.keybindings keyB " ++ qspec "<Super>x"]

/-- The order-7 rank-1 candidate row of `linesC4`. -/
def rKeyA : Row := ⟨"Win + X", "GNOME Shell", "Keya", 1, 7⟩

/-- The order-2 rank-1 candidate row of `linesC4`. -/
def rKeyB : Row := ⟨"Win + X", "GNOME Shell", "Keyb", 1, 2⟩

/-- A dump holding a single custom keybinding group whose binding
normalises to the statically overridden `"Win + Left"`. -/
def linesC9 : List String :=
  ["org.gnome.settings-daemon.plugins.media-keys.custom-keybindings.custom0:/org/path/ binding "
     ++ sq ++ "<Super>+Left" ++ sq,
   "org.gnome.settings-daemon.plugins.media-keys.custom-keybindings.custom0:/org/path/ command "
     ++ sq ++ "myapp" ++ sq]

/-- The row the custom group of `linesC9` materialises into. -/
def rCustomC9 : Row := ⟨"Win + Left", "Myapp", "myapp", 3, 0⟩

/-- A dump holding a single custom keybinding group on an otherwise
unclaimed accelerator. -/
def linesC9w : List String :=
  ["org.gnome.settings-daemon.plugins.media-keys.custom-keybindings.custom0:/org/path/ binding "
     ++ sq ++ "<Super>z" ++ sq,
   "org.gnome.settings-daemon.plugins.media-keys.custom-keybindings.custom0:/org/path/ command "
     ++ sq ++ "myapp" ++ sq]

/-- The row the custom group of `linesC9w` materialises into. -/
def rCustomC9w : Row := ⟨"Win + Z", "Myapp", "myapp", 3, 0⟩

/-- A dump with a single rank-0 schema candidate. -/
def linesC9i : List String :=
  ["org.gnome.desktop.wm.keybindings wmkey " ++ qspec "<Super>x"]

/-- C3 counterexample: in `linesC3` the rank-1 and rank-2 candidates
for `"Win + X"` satisfy every hypothesis of the claim (with no static
override for that accelerator), yet the rank-1 candidate is NOT the row
retained in the output of `collect` — a third rank-0 candidate wins, so
"the rank-A candidate is the one retained" is false as stated. -/
theorem c3_counterexample :
    rShellC3 ∈ candRows (modLabels kb.kbPC) ordZero linesC3 "Win + X" ∧
    rAppC3 ∈ candRows (modLabels kb.kbPC) ordZero linesC3 "Win + X" ∧
    rShellC3.rank < rAppC3.rank ∧
    (∀ sb ∈ coreShortcuts, fmtAccel sb.spec (modLabels kb.kbPC) ≠ some "Win + X") ∧
    rShellC3 ∉ collect (modLabels kb.kbPC) ordZero linesC3 := by decide

/-- C3 (amended): for any two schema candidates for the same canonical
accelerator with ranks A < B and no static override for it, the
retained row is itself one of the schema candidates for that
accelerator and its rank is at most A — in particular strictly below B,
so the rank-B candidate never wins. -/
theorem c3_lower_rank_beats_higher : ∀ (lbl : String → String)
    (ord : String → String → Nat) (lines : List String) (a : String) (r1 r2 : Row),
    r1 ∈ candRows lbl ord lines a → r2 ∈ candRows lbl ord lines a →
    r1.rank < r2.rank →
    (∀ sb ∈ coreShortcuts, fmtAccel sb.spec lbl ≠ some a) →
    ∃ w, w ∈ collect lbl ord lines ∧ w.accel = a ∧
      w ∈ candRows lbl ord lines a ∧ w.rank ≤ r1.rank ∧ w.rank < r2.rank := by
  intro lbl ord lines a r1 r2 h1 h2 hlt hstat
  have hne : candRows lbl ord lines a ≠ [] := by
    intro he
    rw [he] at h1
    exact absurd h1 (List.not_mem_nil r1)
  have hlk := final_lookup_of_schema lbl ord lines a hstat hne
  obtain ⟨w, hw⟩ : ∃ w, resolveRows none (candRows lbl ord lines a) = some w := by
    rcases hcr : candRows lbl ord lines a with _ | ⟨c, t⟩
    · exact absurd hcr hne
    · rw [resolveRows_cons]
      exact resolveRows_some c t
  rw [hw] at hlk
  obtain ⟨hmem, hacc⟩ := mem_collect_of_lookup hlk
  have hle1 := resolveRows_none_min hw r1 h1
  have hr1 : w.rank ≤ r1.rank := by
    rcases hle1 with h | ⟨h, _⟩ <;> omega
  exact ⟨w, hmem, hacc, resolveRows_none_mem hw, hr1, lt_of_le_of_lt hr1 hlt⟩

/-- Witness for the amended C3: in the two-candidate dump `linesC3w`
the winner of `"Win + X"` outranks the rank-2 candidate. -/
theorem c3_witness :
    ∃ w, w ∈ collect (modLabels kb.kbPC) ordZero linesC3w ∧ w.accel = "Win + X" ∧
      w ∈ candRows (modLabels kb.kbPC) ordZero linesC3w "Win + X" ∧
      w.rank ≤ rShellC3.rank ∧ w.rank < rAppC3.rank :=
  c3_lower_rank_beats_higher (modLabels kb.kbPC) ordZero linesC3w "Win + X"
    rShellC3 rAppC3 (by decide) (by decide) (by decide) (by decide)

/-- C4 counterexample: in `linesC4` the two same-rank candidates of
orders 2 and 7 satisfy every hypothesis of the claim (no static
override for `"Win + X"`), yet the smaller-order candidate is NOT the
row retained in `collect` — a rank-0 candidate wins, so "the candidate
with the smaller declaration-order position is the one retained" is
false as stated. -/
theorem c4_counterexample :
    rKeyB ∈ candRows (modLabels kb.kbPC) ordC4 linesC4 "Win + X" ∧
    rKeyA ∈ candRows (modLabels kb.kbPC) ordC4 linesC4 "Win + X" ∧
    rKeyB.rank = rKeyA.rank ∧ rKeyB.order < rKeyA.order ∧
    (∀ sb ∈ coreShortcuts, fmtAccel sb.spec (modLabels kb.kbPC) ≠ some "Win + X") ∧
    rKeyB ∉ collect (modLabels kb.kbPC) ordC4 linesC4 := by decide

/-- C4 (amended): a later candidate replaces the retained record for
its canonical accelerator exactly when its `(rank, order)` pair is
strictly smaller lexicographically (ties keep the first-seen record);
consequently, for two same-rank candidates with orders o1 < o2 and no
static override, the retained row's pair is lexicographically at most
`(rank, o1)` and strictly below `(rank, o2)` — the larger-order
candidate never wins. -/
theorem c4_rank_then_order : (∀ (ch : List (String × Row)) (acc : String) (rNew rOld : Row),
    lookupRow ch acc = some rOld →
    lookupRow (updateChosen ch acc rNew) acc =
      some (if better rNew rOld then rNew else rOld)) ∧
    (∀ (lbl : String → String) (ord : String → String → Nat)
      (lines : List String) (a : String) (r1 r2 : Row),
      r1 ∈ candRows lbl ord lines a → r2 ∈ candRows lbl ord lines a →
      r1.rank = r2.rank → r1.order < r2.order →
      (∀ sb ∈ coreShortcuts, fmtAccel sb.spec lbl ≠ some a) →
      ∃ w, w ∈ collect lbl ord lines ∧ w.accel = a ∧
        w ∈ candRows lbl ord lines a ∧
        (w.rank < r1.rank ∨ (w.rank = r1.rank ∧ w.order ≤ r1.order)) ∧
        (w.rank < r2.rank ∨ (w.rank = r2.rank ∧ w.order < r2.order))) := by
  constructor
  · intro ch acc rNew rOld h
    rw [lookupRow_updateChosen, if_pos rfl, h]
  · intro lbl ord lines a r1 r2 h1 h2 he ho hstat
    have hne : candRows lbl ord lines a ≠ [] := by
      intro hemp
      rw [hemp] at h1
      exact absurd h1 (List.not_mem_nil r1)
    have hlk := final_lookup_of_schema lbl ord lines a hstat hne
    obtain ⟨w, hw⟩ : ∃ w, resolveRows none (candRows lbl ord lines a) = some w := by
      rcases hcr : candRows lbl ord lines a with _ | ⟨c, t⟩
      · exact absurd hcr hne
      · rw [resolveRows_cons]
        exact resolveRows_some c t
    rw [hw] at hlk
    obtain ⟨hmem, hacc⟩ := mem_collect_of_lookup hlk
    have hle1 := resolveRows_none_min hw r1 h1
    refine ⟨w, hmem, hacc, resolveRows_none_mem hw, ?_, ?_⟩
    · exact hle1
    · rcases hle1 with h | ⟨h, hodr⟩
      · exact Or.inl (he ▸ h)
      · exact Or.inr ⟨he ▸ h, by omega⟩

/-- Witness for the amended C4: the update rule keeps the
smaller-order same-rank record, and in the dump `linesC4w` the winner
of `"Win + X"` has order at most 2. -/
theorem c4_witness :
    lookupRow (updateChosen [("Win + X", rKeyA)] "Win + X" rKeyB) "Win + X" = some rKeyB ∧
    (∃ w, w ∈ collect (modLabels kb.kbPC) ordC4 linesC4w ∧ w.accel = "Win + X" ∧
      w ∈ candRows (modLabels kb.kbPC) ordC4 linesC4w "Win + X" ∧
      (w.rank < rKeyB.rank ∨ (w.rank = rKeyB.rank ∧ w.order ≤ rKeyB.order)) ∧
      (w.rank < rKeyA.rank ∨ (w.rank = rKeyA.rank ∧ w.order < rKeyA.order))) := by
  constructor
  · have h := c4_rank_then_order.1 [("Win + X", rKeyA)] "Win + X" rKeyB rKeyA (by decide)
    rw [h]
    decide
  · exact c4_rank_then_order.2 (modLabels kb.kbPC) ordC4 linesC4w "Win + X"
      rKeyB rKeyA (by decide) (by decide) (by decide) (by decide) (by decide)

/-- C9 counterexample: the custom group of `linesC9` materialises into
a record for `"Win + Left"`, an accelerator no schema source claimed,
yet that record does NOT appear in the output of `collect` — the static
override for `"Win + Left"` replaces it, so "does appear in the result"
is false as stated. -/
theorem c9_counterexample :
    ("Win + Left", rCustomC9) ∈
      customRowsOf (modLabels kb.kbPC) (schemaPhase (modLabels kb.kbPC) ordZero linesC9).customs ∧
    candRows (modLabels kb.kbPC) ordZero linesC9 "Win + Left" = [] ∧
    rCustomC9 ∉ collect (modLabels kb.kbPC) ordZero linesC9 := by decide

/-- C9 (amended): a materialised custom binding never replaces the
schema winner of an occupied accelerator; a custom binding whose
canonical accelerator no schema source, no static override and no other
custom group claims does appear in the result; a custom record is
emitted only when its binding spec was observed (the unobserved binding
is the empty spec, which never normalises); the action label defaults
to the raw command text when no name was observed, and the application
label is the humanised command basename whenever that is non-empty. -/
theorem c9_custom_never_overrides : (∀ (lbl : String → String)
    (ord : String → String → Nat) (lines : List String) (a : String) (w : Row),
    (∀ sb ∈ coreShortcuts, fmtAccel sb.spec lbl ≠ some a) →
    resolveRows none (candRows lbl ord lines a) = some w →
    w ∈ collect lbl ord lines ∧ w.accel = a) ∧
    (∀ (lbl : String → String) (ord : String → String → Nat)
      (lines : List String) (a : String) (r : Row),
      candRows lbl ord lines a = [] →
      (∀ sb ∈ coreShortcuts, fmtAccel sb.spec lbl ≠ some a) →
      (customRowsOf lbl (schemaPhase lbl ord lines).customs).filter
          (fun p => decide (p.1 = a)) = [(a, r)] →
      r ∈ collect lbl ord lines ∧ r.accel = a) ∧
    (∀ (lbl : String → String) (c : Custom), c.bind = "" → fmtAccel c.bind lbl = none) ∧
    (∀ (c : Custom) (acc : String),
      (c.name = "" → (mkCustomRow c acc).action = c.cmd) ∧
      (humanise (baseName c.cmd) ≠ "" →
        (mkCustomRow c acc).app = humanise (baseName c.cmd))) := by
  refine ⟨?_, ?_, ?_, ?_⟩
  · intro lbl ord lines a w hstat hw
    have hne : candRows lbl ord lines a ≠ [] := by
      intro hemp
      rw [hemp] at hw
      simp [resolveRows] at hw
    have hlk := final_lookup_of_schema lbl ord lines a hstat hne
    rw [hw] at hlk
    exact mem_collect_of_lookup hlk
  · intro lbl ord lines a r h0 hstat hfil
    have hnone : lookupRow (schemaPhase lbl ord lines).chosen a = none := by
      rw [schemaPhase_lookup, h0]
      rfl
    have h1 : lookupRow (customPhase lbl (schemaPhase lbl ord lines).chosen
        (schemaPhase lbl ord lines).customs) a = some r :=
      customPhase_fill hnone hfil
    have h2 : lookupRow (finalChosen lbl ord lines) a = some r := by
      unfold finalChosen staticPhase
      rw [setEntry_fold_nokey _ _ _ (static_keys_ne hstat)]
      exact h1
    exact mem_collect_of_lookup h2
  · intro lbl c h
    rw [h]
    rfl
  · intro c acc
    have h0 : humanise "" = "" := rfl
    constructor
    · intro h
      simp [mkCustomRow, h, h0]
    · intro h
      simp [mkCustomRow, h]

/-- Witness for the amended C9: a schema winner survives the custom
pass, a custom binding on an unclaimed accelerator appears in the
result, the empty binding never normalises, and the defaulting rules at
a concrete group. -/
theorem c9_witness :
    ((⟨"Win + X", "Window Manager", "Wmkey", 0, 0⟩ : Row) ∈
        collect (modLabels kb.kbPC) ordZero linesC9i ∧
      (⟨"Win + X", "Window Manager", "Wmkey", 0, 0⟩ : Row).accel = "Win + X") ∧
    (rCustomC9w ∈ collect (modLabels kb.kbPC) ordZero linesC9w ∧
      rCustomC9w.accel = "Win + Z") ∧
    fmtAccel (Custom.bind ⟨"", "name", "cmd"⟩) (modLabels kb.kbPC) = none ∧
    (mkCustomRow ⟨"<Super>z", "", "myapp"⟩ "Win + Z").action = "myapp" ∧
    (mkCustomRow ⟨"<Super>z", "", "myapp"⟩ "Win + Z").app = "Myapp" := by
  refine ⟨c9_custom_never_overrides.1 (modLabels kb.kbPC) ordZero linesC9i "Win + X"
      ⟨"Win + X", "Window Manager", "Wmkey", 0, 0⟩ (by decide) (by decide),
    c9_custom_never_overrides.2.1 (modLabels kb.kbPC) ordZero linesC9w "Win + Z"
      rCustomC9w (by decide) (by decide) (by decide),
    c9_custom_never_overrides.2.2.1 (modLabels kb.kbPC) ⟨"", "name", "cmd"⟩ rfl,
    ?_, ?_⟩
  · exact (c9_custom_never_overrides.2.2.2 ⟨"<Super>z", "", "myapp"⟩ "Win + Z").1 rfl
  · have h := (c9_custom_never_overrides.2.2.2 ⟨"<Super>z", "", "myapp"⟩ "Win + Z").2
      (by decide)
    rw [h]
    decide

end GnomeShortcuts
